import Mathlib

/-!
# Paste Happy URL codec: shallow embedding and verification

This file embeds the compact text codec of the Paste Happy repository:

* the encoder `encodePostCopyToUriComponent` from `src/lib/pasteHappyEncode.ts`,
* the decoder `decompress` / `decompressFromEncodedURIComponent` from
  `userscripts/facebook-group-autofill.user.js`, and
* the second, separately deployed copy of that decoder embedded in the
  Autopost userscript inside `src/lib/pasteHappyEncode.ts`
  (namespace `AutopostEmbedded`).

JavaScript strings are sequences of UTF-16 code units; we model them as
`List Nat` (each element a code unit).  `jstr` converts a Lean string literal
(all literals used here are in the BMP) to that representation.

JavaScript exceptions are modelled by `Option`: a function that can `throw`
returns `none` on the throwing path.  The JS value `null` (the decoder's
variable `w` and `dictionary[3]` can hold it) is modelled by `Option` on the
stored value, with JS string coercion (`null + s = "null" + s`) and JS
truthiness (`undefined`, `null` and `""` are falsy) modelled explicitly.
-/

/-- Code units of a Lean string literal, modelling a JS string constant.
All literals in this file are ASCII, where `Char.toNat` is the code unit. -/
def jstr (s : String) : List Nat := s.toList.map Char.toNat

/-! ## Encoder: `src/lib/pasteHappyEncode.ts` -/

/-- `const alphabet = 'ABCDEFGHIJKLMNOPQRSTUVWXYZabcdefghijklmnopqrstuvwxyz0123456789+-$'`. -/
def alphabet : List Nat :=
  jstr "ABCDEFGHIJKLMNOPQRSTUVWXYZabcdefghijklmnopqrstuvwxyz0123456789+-$"

/-- The encoder's mutable state: the JS code passes `output: string[]` and
`state: { buffer: number; bitCount: number }` side by side; we bundle them. -/
structure EncSt where
  buffer : Nat
  bitCount : Nat
  output : List Nat

/-- `pushBits(value, bits, output, state)`: for `i = 0 .. bits-1` shift bit
`(value >> i) & 1` into the 6-bit buffer; each completed group is appended to
`output` as `alphabet.charAt(buffer)`. -/
def pushBits (value bits : Nat) (st : EncSt) : EncSt :=
  (List.range bits).foldl
    (fun state i =>
      let buffer := (state.buffer <<< 1) ||| ((value >>> i) &&& 1)
      let bitCount := state.bitCount + 1
      if bitCount = 6 then
        { buffer := 0, bitCount := 0, output := state.output ++ [alphabet.getD buffer 0] }
      else
        { state with buffer := buffer, bitCount := bitCount })
    st

/-- Body of the final `while (true)` flush loop (lines 99-106 of the source):
shift in zero bits until a 6-bit group completes, emit it, and stop.  Since
`bitCount < 6` is an invariant of `pushBits` (proved below), the loop runs
exactly `6 - bitCount` times; the fuel `6` passed by `flushPadding` is exact. -/
def flushLoop : Nat → Nat → Nat → List Nat → List Nat
  | 0, _, _, output => output
  | fuel + 1, buffer, bitCount, output =>
    let buffer := buffer <<< 1
    let bitCount := bitCount + 1
    if bitCount = 6 then output ++ [alphabet.getD buffer 0]
    else flushLoop fuel buffer bitCount output

/-- The end-of-stream zero padding flush of the encoder. -/
def flushPadding (st : EncSt) : List Nat :=
  flushLoop 6 st.buffer st.bitCount st.output

/-- Lookup in the encoder's `Map<string, number>` dictionary, modelled as an
association list (the source only ever inserts keys that are absent, so there
are no duplicate keys). -/
def dictFind (dictionary : List (List Nat × Nat)) (k : List Nat) : Option Nat :=
  (dictionary.find? (fun e => e.1 == k)).map (·.2)

/-- The local variables of `encodePostCopyToUriComponent` between loop
iterations. -/
structure EncCtx where
  dictionary : List (List Nat × Nat)
  pending : List (List Nat)
  dictionarySize : Nat
  numBits : Nat
  enlargeIn : Nat
  st : EncSt
  w : List Nat

/-- Lines 60-64 / 90-94: `enlargeIn -= 1; if (enlargeIn === 0) { enlargeIn = 1 << numBits; numBits += 1; }`. -/
def bumpEnlarge (ctx : EncCtx) : EncCtx :=
  let enlargeIn := ctx.enlargeIn - 1
  if enlargeIn = 0 then
    { ctx with enlargeIn := 1 <<< ctx.numBits, numBits := ctx.numBits + 1 }
  else
    { ctx with enlargeIn := enlargeIn }

/-- The emission of `w` (lines 42-64, repeated at 72-94): a pending first
occurrence is sent as a literal escape (marker 0 + 8 bits, or marker 1 +
16 bits); otherwise the dictionary code of `w` is sent in `numBits` bits.
`none` models the `throw new Error('Unexpected missing dictionary entry.')`
path. -/
def emitW (ctx : EncCtx) : Option EncCtx :=
  if ctx.w ∈ ctx.pending then
    let pending := ctx.pending.erase ctx.w
    let charCode := ctx.w.getD 0 0
    let st :=
      if charCode < 256 then pushBits charCode 8 (pushBits 0 ctx.numBits ctx.st)
      else pushBits charCode 16 (pushBits 1 ctx.numBits ctx.st)
    some (bumpEnlarge { ctx with pending := pending, st := st })
  else
    match dictFind ctx.dictionary ctx.w with
    | none => none
    | some value => some (bumpEnlarge { ctx with st := pushBits value ctx.numBits ctx.st })

/-- One iteration of the encoder's main `for` loop (lines 31-69), processing
the code unit `c`. -/
def encodeStep (ctx : EncCtx) (c : Nat) : Option EncCtx :=
  let ctx :=
    if (dictFind ctx.dictionary [c]).isSome then ctx
    else
      { ctx with
        dictionary := ctx.dictionary ++ [([c], ctx.dictionarySize)]
        dictionarySize := ctx.dictionarySize + 1
        pending := ctx.pending ++ [[c]] }
  let wc := ctx.w ++ [c]
  if (dictFind ctx.dictionary wc).isSome then
    some { ctx with w := wc }
  else
    match emitW ctx with
    | none => none
    | some ctx' =>
      some { ctx' with
        dictionary := ctx'.dictionary ++ [(wc, ctx'.dictionarySize)]
        dictionarySize := ctx'.dictionarySize + 1
        w := [c] }

/-- The characters that JS `encodeURIComponent` leaves unescaped:
`A-Z a-z 0-9 - _ . ! ~ * ' ( )`. -/
def uriUnreserved (u : Nat) : Bool :=
  (65 ≤ u && u ≤ 90) || (97 ≤ u && u ≤ 122) || (48 ≤ u && u ≤ 57) ||
    u ∈ [45, 95, 46, 33, 126, 42, 39, 40, 41]

/-- Uppercase hexadecimal digit character for a value `0-15`. -/
def hexDigitChar (n : Nat) : Nat := if n < 10 then 48 + n else 55 + n

/-- Model of the JS builtin `encodeURIComponent` on the ASCII range: unreserved
characters map to themselves, every other unit below `0x80` to `%XX`.  Units
`≥ 0x80` would be UTF-8 percent-encoded by JS; they are outside the modelled
domain (the encoder output consists of alphabet characters only, all ASCII)
and are mapped to themselves here. -/
def encodeURIComponentM (s : List Nat) : List Nat :=
  s.flatMap fun u =>
    if u < 128 then
      if uriUnreserved u then [u] else [37, hexDigitChar (u / 16 % 16), hexDigitChar (u % 16)]
    else [u]

/-- Value of an ASCII hexadecimal digit character, if it is one. -/
def hexVal (u : Nat) : Option Nat :=
  if 48 ≤ u && u ≤ 57 then some (u - 48)
  else if 65 ≤ u && u ≤ 70 then some (u - 55)
  else if 97 ≤ u && u ≤ 102 then some (u - 87)
  else none

/-- Model of the JS builtin `decodeURIComponent` on the ASCII range: `%XX`
escapes with value below `0x80` are replaced by that unit, other characters map
to themselves.  `none` models a thrown `URIError` (malformed escape) or an
escape `≥ 0x80` (whose UTF-8 multi-byte decoding is outside the modelled
domain; the encoder never produces one). -/
def decodeURIComponentM : List Nat → Option (List Nat)
  | [] => some []
  | 37 :: h1 :: h2 :: rest =>
    match hexVal h1, hexVal h2 with
    | some a, some b =>
      if 16 * a + b < 128 then (decodeURIComponentM rest).map ((16 * a + b) :: ·)
      else none
    | _, _ => none
  | 37 :: _ => none
  | u :: rest => (decodeURIComponentM rest).map (u :: ·)

/-- `encodePostCopyToUriComponent` (lines 15-109).  The argument is an
`Option` so that the JS `input == null` guard is representable; `none` on the
result models the (unreachable) `throw` inside the dictionary emission. -/
def encodePostCopyToUriComponent (input : Option (List Nat)) : Option (List Nat) :=
  match input with
  | none => some []
  | some inp =>
    if inp = [] then some []
    else
      let ctx0 : EncCtx :=
        { dictionary := [], pending := [], dictionarySize := 3, numBits := 2, enlargeIn := 2
          st := { buffer := 0, bitCount := 0, output := [] }, w := [] }
      let folded := inp.foldl
        (fun acc c => match acc with
          | none => none
          | some ctx => encodeStep ctx c)
        (some ctx0)
      match folded with
      | none => none
      | some ctx =>
        let final := if ctx.w = [] then some ctx else emitW ctx
        match final with
        | none => none
        | some ctx2 =>
          let st := pushBits 2 ctx2.numBits ctx2.st
          some (encodeURIComponentM (flushPadding st))

/-! ## Decoder: `userscripts/facebook-group-autofill.user.js` -/

/-- `const keyStrUriSafe = 'ABCDEFGHIJKLMNOPQRSTUVWXYZabcdefghijklmnopqrstuvwxyz0123456789+-$'`. -/
def keyStrUriSafe : List Nat :=
  jstr "ABCDEFGHIJKLMNOPQRSTUVWXYZabcdefghijklmnopqrstuvwxyz0123456789+-$"

/-- `getBaseValue(alphabet, character)`: reverse lookup of a character in the
alphabet.  The argument is `none` when `str.charAt(index)` was out of range
(JS yields `''`, which is not in the reverse table); a character not in the
alphabet yields `undefined`, i.e. `none`. -/
def getBaseValue (alph : List Nat) (character : Option Nat) : Option Nat :=
  match character with
  | none => none
  | some c => alph.indexOf? c

/-- The decoder's bit cursor `data = { value, position, index }`. -/
structure RdSt where
  value : Nat
  position : Nat
  index : Nat

/-- The decoder's repeated inner loop
`while (power !== maxpower) { bit = data.value & data.position; ... }`,
reading `n` bits (the loop runs exactly `n` times since `power` doubles from
`1` to `2 ^ n`).  Bits are reassembled least-significant first
(`bitsValue |= (bit > 0 ? 1 : 0) * power`); the cursor reloads
`getNextValue(data.index++) ?? 0` whenever `position` reaches zero. -/
def readBits (resetValue : Nat) (getNextValue : Nat → Option Nat) :
    Nat → Nat → Nat → RdSt → Nat × RdSt
  | 0, bitsValue, _, data => (bitsValue, data)
  | n + 1, bitsValue, power, data =>
    let bit := data.value &&& data.position
    let position := data.position >>> 1
    let data' :=
      if position = 0 then RdSt.mk ((getNextValue data.index).getD 0) resetValue (data.index + 1)
      else RdSt.mk data.value position data.index
    readBits resetValue getNextValue n (bitsValue ||| (if 0 < bit then 1 else 0) * power)
      (power * 2) data'

/-- JS truthiness of a dictionary slot: `undefined`/`null` and the empty
string are falsy, a non-empty string is truthy. -/
def truthy : Option (List Nat) → Bool
  | some (_ :: _) => true
  | _ => false

/-- JS string concatenation `w + s` where `w` may be `null`
(`null + s` coerces to `"null" + s`). -/
def jsConcat (w : Option (List Nat)) (s : List Nat) : List Nat :=
  match w with
  | none => jstr "null" ++ s
  | some ws => ws ++ s

/-- The decoder's main `while (true)` loop (lines 561-646).  `dictionary`
holds the entries for codes `3, 4, ...` in order (codes 0-2 hold the reserved
numeric markers in JS; they are never consulted as string values because the
`switch` intercepts `c ∈ {0, 1, 2}`).  `w` and the entries are `Option`s since
JS can store `null` there (invalid initial marker).  The result is `none` on
the JS `TypeError` path (`w.charAt(0)` with `w === null`).  The `fuel`
argument makes the recursion structural; each iteration consumes at least
3 bits and the loop exits once `data.index > length`, so the loop runs at
most `2 * length + 2` iterations and the fuel passed by `decompress` is never
exhausted. -/
def decompressLoop (length resetValue : Nat) (getNextValue : Nat → Option Nat) :
    Nat → List (Option (List Nat)) → Nat → Nat → Nat →
    Option (List Nat) → List (Option (List Nat)) → RdSt → Option (List Nat)
  | 0, _, _, _, _, _, _, _ => none
  | fuel + 1, dictionary, enlargeIn, dictSize, numBits, w, result, data =>
    if data.index > length then
      some []
    else
      let rc := readBits resetValue getNextValue numBits 0 1 data
      if rc.1 = 2 then
        some (result.flatMap (fun o => o.getD []))
      else
        let step :=
          if rc.1 = 0 then
            let rb := readBits resetValue getNextValue 8 0 1 rc.2
            (dictionary ++ [some [rb.1]], enlargeIn - 1, dictSize + 1, dictSize, rb.2)
          else if rc.1 = 1 then
            let rb := readBits resetValue getNextValue 16 0 1 rc.2
            (dictionary ++ [some [rb.1]], enlargeIn - 1, dictSize + 1, dictSize, rb.2)
          else
            (dictionary, enlargeIn, dictSize, rc.1, rc.2)
        match step with
        | (dictionary, enlargeIn, dictSize, c, data) =>
          let (enlargeIn, numBits) :=
            if enlargeIn = 0 then (2 ^ numBits, numBits + 1) else (enlargeIn, numBits)
          let entry := if 3 ≤ c then (dictionary.get? (c - 3)).getD none else none
          let cont := fun (value : List Nat) =>
            let result := result ++ [some value]
            let dictionary := dictionary ++ [some (jsConcat w (value.take 1))]
            let enlargeIn := enlargeIn - 1
            let (enlargeIn, numBits) :=
              if enlargeIn = 0 then (2 ^ numBits, numBits + 1) else (enlargeIn, numBits)
            decompressLoop length resetValue getNextValue fuel dictionary enlargeIn
              (dictSize + 1) numBits (some value) result data
          if truthy entry then
            cont (entry.getD [])
          else if c = dictSize then
            match w with
            | none => none
            | some ws => cont (ws ++ ws.take 1)
          else
            some []

/-- `decompress(length, resetValue, getNextValue)` (lines 490-647): read the
2-bit initial marker (0 → 8-bit literal, 1 → 16-bit literal, 2 → empty
string, anything else leaves `next = null`), seed the dictionary and result,
then run the main loop. -/
def decompress (length resetValue : Nat) (getNextValue : Nat → Option Nat) :
    Option (List Nat) :=
  let data : RdSt := ⟨(getNextValue 0).getD 0, resetValue, 1⟩
  let r2 := readBits resetValue getNextValue 2 0 1 data
  if r2.1 = 2 then some []
  else
    let seeded : Option (List Nat) × RdSt :=
      if r2.1 = 0 then
        let rb := readBits resetValue getNextValue 8 0 1 r2.2
        (some [rb.1], rb.2)
      else if r2.1 = 1 then
        let rb := readBits resetValue getNextValue 16 0 1 r2.2
        (some [rb.1], rb.2)
      else (none, r2.2)
    decompressLoop length resetValue getNextValue (2 * length + 8)
      [seeded.1] 4 4 3 seeded.1 [seeded.1] seeded.2

/-- The `input.replace(/ /g, '+')` normalization (space is code unit 32,
`'+'` is 43). -/
def plusNormalize (input : List Nat) : List Nat :=
  input.map (fun u => if u = 32 then 43 else u)

/-- `decompressFromEncodedURIComponent` (lines 482-488).  The JS
`input == null` guard coincides with the empty-string guard in this
embedding (all callers in scope pass strings). -/
def decompressFromEncodedURIComponent (input : List Nat) : Option (List Nat) :=
  if input = [] then some []
  else
    let str := plusNormalize input
    decompress str.length 32 (fun index => getBaseValue keyStrUriSafe (str.get? index))

/-- `decodePostCopy` (lines 129-135): percent-decode then decompress; a falsy
input (absent or empty) yields `''`.  `none` models a thrown exception
(`URIError` from `decodeURIComponent` or the decoder's `TypeError`). -/
def decodePostCopy (input : Option (List Nat)) : Option (List Nat) :=
  match input with
  | none => some []
  | some s =>
    if s = [] then some []
    else
      match decodeURIComponentM s with
      | none => none
      | some uriComponent => decompressFromEncodedURIComponent uriComponent

/-! ## Second decoder copy: the Autopost userscript embedded in
`src/lib/pasteHappyEncode.ts` (lines 402-581 of that file).  It is deployed
separately from the copy above; claim C8 compares the two. -/

namespace AutopostEmbedded

/-- The embedded copy's `keyStrUriSafe` (line 402 of `pasteHappyEncode.ts`). -/
def keyStrUriSafe : List Nat :=
  jstr "ABCDEFGHIJKLMNOPQRSTUVWXYZabcdefghijklmnopqrstuvwxyz0123456789+-$"

/-- The embedded copy's `getBaseValue` (lines 405-413). -/
def getBaseValue (alph : List Nat) (character : Option Nat) : Option Nat :=
  match character with
  | none => none
  | some c => alph.indexOf? c

/-- The embedded copy's inner bit-reading loop (repeated inline in its
`decompress`, lines 437-449 etc.). -/
def readBits (resetValue : Nat) (getNextValue : Nat → Option Nat) :
    Nat → Nat → Nat → RdSt → Nat × RdSt
  | 0, bitsValue, _, data => (bitsValue, data)
  | n + 1, bitsValue, power, data =>
    let bit := data.value &&& data.position
    let position := data.position >>> 1
    let data' :=
      if position = 0 then RdSt.mk ((getNextValue data.index).getD 0) resetValue (data.index + 1)
      else RdSt.mk data.value position data.index
    readBits resetValue getNextValue n (bitsValue ||| (if 0 < bit then 1 else 0) * power)
      (power * 2) data'

/-- The embedded copy's main decode loop (lines 494-579). -/
def decompressLoop (length resetValue : Nat) (getNextValue : Nat → Option Nat) :
    Nat → List (Option (List Nat)) → Nat → Nat → Nat →
    Option (List Nat) → List (Option (List Nat)) → RdSt → Option (List Nat)
  | 0, _, _, _, _, _, _, _ => none
  | fuel + 1, dictionary, enlargeIn, dictSize, numBits, w, result, data =>
    if data.index > length then
      some []
    else
      let rc := readBits resetValue getNextValue numBits 0 1 data
      if rc.1 = 2 then
        some (result.flatMap (fun o => o.getD []))
      else
        let step :=
          if rc.1 = 0 then
            let rb := readBits resetValue getNextValue 8 0 1 rc.2
            (dictionary ++ [some [rb.1]], enlargeIn - 1, dictSize + 1, dictSize, rb.2)
          else if rc.1 = 1 then
            let rb := readBits resetValue getNextValue 16 0 1 rc.2
            (dictionary ++ [some [rb.1]], enlargeIn - 1, dictSize + 1, dictSize, rb.2)
          else
            (dictionary, enlargeIn, dictSize, rc.1, rc.2)
        match step with
        | (dictionary, enlargeIn, dictSize, c, data) =>
          let (enlargeIn, numBits) :=
            if enlargeIn = 0 then (2 ^ numBits, numBits + 1) else (enlargeIn, numBits)
          let entry := if 3 ≤ c then (dictionary.get? (c - 3)).getD none else none
          let cont := fun (value : List Nat) =>
            let result := result ++ [some value]
            let dictionary := dictionary ++ [some (jsConcat w (value.take 1))]
            let enlargeIn := enlargeIn - 1
            let (enlargeIn, numBits) :=
              if enlargeIn = 0 then (2 ^ numBits, numBits + 1) else (enlargeIn, numBits)
            decompressLoop length resetValue getNextValue fuel dictionary enlargeIn
              (dictSize + 1) numBits (some value) result data
          if truthy entry then
            cont (entry.getD [])
          else if c = dictSize then
            match w with
            | none => none
            | some ws => cont (ws ++ ws.take 1)
          else
            some []

/-- The embedded copy's `decompress` (lines 423-580). -/
def decompress (length resetValue : Nat) (getNextValue : Nat → Option Nat) :
    Option (List Nat) :=
  let data : RdSt := ⟨(getNextValue 0).getD 0, resetValue, 1⟩
  let r2 := readBits resetValue getNextValue 2 0 1 data
  if r2.1 = 2 then some []
  else
    let seeded : Option (List Nat) × RdSt :=
      if r2.1 = 0 then
        let rb := readBits resetValue getNextValue 8 0 1 r2.2
        (some [rb.1], rb.2)
      else if r2.1 = 1 then
        let rb := readBits resetValue getNextValue 16 0 1 r2.2
        (some [rb.1], rb.2)
      else (none, r2.2)
    decompressLoop length resetValue getNextValue (2 * length + 8)
      [seeded.1] 4 4 3 seeded.1 [seeded.1] seeded.2

/-- The embedded copy's `decompressFromEncodedURIComponent` (lines 415-421). -/
def decompressFromEncodedURIComponent (input : List Nat) : Option (List Nat) :=
  if input = [] then some []
  else
    let str := plusNormalize input
    decompress str.length 32 (fun index => getBaseValue keyStrUriSafe (str.get? index))

end AutopostEmbedded

/-! ## Variant of the decoder entry following the specification's words
(for claim C3, which asserts a `'+'` → space translation). -/

/-- Modelled from the spec: claim C3 / spec section 4.4 say the decoder should
"translate any literal `+` character back to a space before feeding the string
into the decoder's alphabet-index lookup".  This definition follows those
words (`'+'` is 43, space is 32); it is compared against the source's
`decompressFromEncodedURIComponent`, which performs the opposite replacement
`input.replace(/ /g, '+')`. -/
def decompressFromEncodedURIComponentSpecC3 (input : List Nat) : Option (List Nat) :=
  if input = [] then some []
  else
    let str := input.map (fun u => if u = 43 then 32 else u)
    decompress str.length 32 (fun index => getBaseValue keyStrUriSafe (str.get? index))

/-! ## Bit-level abstractions used by the proofs

These definitions are not part of the source; they are the specification
vocabulary in which the bit-codec lemmas (claim C7) are stated: the encoder's
output viewed as a flat bit sequence, and the decoder's cursor viewed as a
position in that sequence. -/

/-- The low `n` bits of `v`, least-significant first (the order `pushBits`
consumes them). -/
def toBitsLSB (v : Nat) : Nat → List Nat
  | 0 => []
  | n + 1 => (v &&& 1) :: toBitsLSB (v >>> 1) n

/-- The low `k` bits of a buffer value `b`, in emission order (most
significant of the group first). -/
def bufBits (b : Nat) : Nat → List Nat
  | 0 => []
  | k + 1 => bufBits (b >>> 1) k ++ [b &&& 1]

/-- Alphabet index of an output character (`0` for characters outside the
alphabet, matching the decoder's `?? 0`). -/
def charIdx (c : Nat) : Nat := (getBaseValue keyStrUriSafe (some c)).getD 0

/-- The bit sequence a full token (list of output characters) denotes. -/
def tokenBits (token : List Nat) : List Nat :=
  token.flatMap (fun c => bufBits (charIdx c) 6)

/-- The bit sequence an encoder state denotes: completed 6-bit groups followed
by the partial buffer. -/
def bitsOf (st : EncSt) : List Nat :=
  tokenBits st.output ++ bufBits st.buffer st.bitCount

/-- Folding a list of raw bits into the encoder state, one `pushBits` loop
iteration per bit. -/
def pushList (bs : List Nat) (st : EncSt) : EncSt :=
  bs.foldl
    (fun state b =>
      let buffer := (state.buffer <<< 1) ||| b
      let bitCount := state.bitCount + 1
      if bitCount = 6 then
        { buffer := 0, bitCount := 0, output := state.output ++ [alphabet.getD buffer 0] }
      else
        { state with buffer := buffer, bitCount := bitCount })
    st

/-- Well-formedness of the encoder's bit buffer: fewer than 6 pending bits,
and the buffer holds only those bits. -/
def EncWF (st : EncSt) : Prop := st.bitCount < 6 ∧ st.buffer < 2 ^ st.bitCount

/-- The effective symbol-value stream the decoder sees: `getNextValue i ?? 0`. -/
def effGet (get : Nat → Option Nat) : Nat → Nat := fun i => (get i).getD 0

/-- Bit `k` of the flat bit stream denoted by symbol-value stream `g`. -/
def streamBit (g : Nat → Nat) (k : Nat) : Nat := g (k / 6) >>> (5 - k % 6) &&& 1

/-- The decoder cursor positioned at flat bit `k` of symbol stream `g` (with
`resetValue = 32`). -/
def rdAt (g : Nat → Nat) (k : Nat) : RdSt := ⟨g (k / 6), 2 ^ (5 - k % 6), k / 6 + 1⟩

/-- The value of the next `n` stream bits starting at `k`, least-significant
first (what the decoder's bit loop reassembles). -/
def valBits (g : Nat → Nat) (k : Nat) : Nat → Nat
  | 0 => 0
  | n + 1 => streamBit g k + 2 * valBits g (k + 1) n

/-- Writing a list of `(value, width)` pairs with the encoder's `pushBits`
from the initial state. -/
def writeValues (ps : List (Nat × Nat)) : EncSt :=
  ps.foldl (fun st p => pushBits p.1 p.2 st) { buffer := 0, bitCount := 0, output := [] }

/-- The token produced for a list of `(value, width)` pairs: write each pair,
then apply the zero-padding flush. -/
def encodeToken (ps : List (Nat × Nat)) : List Nat :=
  flushPadding (writeValues ps)

/-- The decoder's view of a token: `getBaseValue` over its characters, exactly
as `decompressFromEncodedURIComponent` wires it. -/
def tokenGet (token : List Nat) : Nat → Option Nat :=
  fun i => getBaseValue keyStrUriSafe (token.get? i)

/-- Reading a list of widths back with the decoder's bit-reading loop. -/
def readValues (resetValue : Nat) (get : Nat → Option Nat) :
    List Nat → RdSt → List Nat × RdSt
  | [], data => ([], data)
  | n :: ns, data =>
    let r := readBits resetValue get n 0 1 data
    let rest := readValues resetValue get ns r.2
    (r.1 :: rest.1, rest.2)

/-- The flat bit sequence of a list of `(value, width)` pairs. -/
def flatBits (ps : List (Nat × Nat)) : List Nat :=
  ps.flatMap (fun p => toBitsLSB p.1 p.2)

/-- The first 64 alphabet characters (the ones a 6-bit symbol value can
denote; the 65th character `'$'` is never produced by the encoder). -/
def alphabet64 : List Nat :=
  jstr "ABCDEFGHIJKLMNOPQRSTUVWXYZabcdefghijklmnopqrstuvwxyz0123456789+-"

/-- Cursor-state correspondence modulo the low 6 bits of the loaded symbol
value (only those are ever inspected when `resetValue = 32`): used to state
that foreign token characters behave like alphabet index 0 (claim C10). -/
def ValEq64 (a b : RdSt) : Prop :=
  a.value % 64 = b.value % 64 ∧ a.position = b.position ∧ a.index = b.index

/-- The positions the cursor mask can take when `resetValue = 32`. -/
def PosOK (p : Nat) : Prop := ∃ j, j ≤ 5 ∧ p = 2 ^ j

/-! ## Concrete wire-format evaluations (claims C1, C2, C3, C4, C5, C6) -/

/-- C4: `encodePostCopyToUriComponent("A")` returns exactly the
three-character string `"IJA"`: the 8-bit literal escape at width 2, the
character value 65, the end-of-stream marker 2 at width 2, and zero-padding
to a 6-bit boundary under the initial encoder state. -/
theorem c4_encode_A_eq_IJA :
    encodePostCopyToUriComponent (some (jstr "A")) = some (jstr "IJA") := by
  decide

/-- C1 (code bug): the round-trip law fails on the two-character input
`"AA"`.  The encoder produces the token `"ILQ"`, `decodeURIComponent` leaves
it unchanged, and the deployed decoder returns the empty string for it — not
`"AA"`.  (The encoder decrements `enlargeIn` once per literal-escape token
where the decoder's schedule requires two decrements, so the code widths of
the two sides desynchronize after the first literal.) -/
theorem c1_roundtrip_fails_on_AA :
    encodePostCopyToUriComponent (some (jstr "AA")) = some (jstr "ILQ") ∧
    decodeURIComponentM (jstr "ILQ") = some (jstr "ILQ") ∧
    decompressFromEncodedURIComponent (jstr "ILQ") = some [] ∧
    some ([] : List Nat) ≠ some (jstr "AA") :=
  ⟨by decide, by decide, by decide, by decide⟩

/-- C2 (counterexample): both decode-error classes the claim lists are
silently returned as the empty string — the very value that is also the
success result for the empty source — rather than any distinguishable
failure.  `"I"` is a truncated prefix of the valid token `"IJA"`
(= encode `"A"`), exhausting the bit stream; `"EJy"` parses its initial
8-bit literal and then reads the 3-bit code 6, a dictionary code referenced
before being defined that is not the self-referential case (`dictSize` is 4
at that point), hitting the decoder's unresolved-code `return ''`. -/
theorem c2_counterexample_errors_silently_empty :
    (∃ rest, jstr "I" ++ rest = jstr "IJA") ∧
    encodePostCopyToUriComponent (some (jstr "A")) = some (jstr "IJA") ∧
    decompressFromEncodedURIComponent (jstr "I") = some [] ∧
    decompressFromEncodedURIComponent (jstr "EJy") = some [] ∧
    decompressFromEncodedURIComponent [] = some [] :=
  ⟨⟨jstr "JA", by decide⟩, by decide, by decide, by decide, by decide⟩

/-- C2 (amended): decode errors are not surfaced as a distinguishable
failure.  The truncated prefix `"I"` of the valid token `"IJA"` (exhausted
bit stream) decodes to exactly the same result as the empty string; so does
`"EJy"`, whose first main-loop code — shown by the `readBits` conjunct to be
6, read after the 2-bit marker and the 8-bit literal, with `dictSize` equal
to 4 at that point — is an unresolved dictionary reference that is not the
self-referential case; and the truncated prefix `"IJ"` silently decodes to
the full string `"A"` (the zero-extension of the exhausted stream completes
the parse). -/
theorem c2_amended_errors_indistinguishable :
    decompressFromEncodedURIComponent (jstr "I") = decompressFromEncodedURIComponent [] ∧
    decompressFromEncodedURIComponent (jstr "EJy") = decompressFromEncodedURIComponent [] ∧
    (readBits 32 (tokenGet (plusNormalize (jstr "EJy"))) 3 0 1
        (readBits 32 (tokenGet (plusNormalize (jstr "EJy"))) 8 0 1
          (readBits 32 (tokenGet (plusNormalize (jstr "EJy"))) 2 0 1
            ⟨effGet (tokenGet (plusNormalize (jstr "EJy"))) 0, 32, 1⟩).2).2).1 = 6 ∧
    decompressFromEncodedURIComponent (jstr "IJ") = some (jstr "A") :=
  ⟨by decide, by decide, by decide, by decide⟩

/-- C3 (counterexample): the decoder does not translate `'+'` to a space.  On
the token `"EJ+"` the source keeps the `'+'` (alphabet index 62) and returns
the empty string, while the spec-described `'+'` → space translation would
make the third symbol read as index 0 and decode to `"B"`. -/
theorem c3_counterexample_plus_kept_not_spaced :
    decompressFromEncodedURIComponent (jstr "EJ+") = some [] ∧
    decompressFromEncodedURIComponentSpecC3 (jstr "EJ+") = some (jstr "B") ∧
    some ([] : List Nat) ≠ some (jstr "B") :=
  ⟨by decide, by decide, by decide⟩

/-- C5: empty-input short circuit on both sides: a null or empty encoder
input yields the empty token with no further processing, and decoding the
empty token yields the empty string; none of these is an error result. -/
theorem c5_empty_short_circuit :
    encodePostCopyToUriComponent none = some [] ∧
    encodePostCopyToUriComponent (some []) = some [] ∧
    decompressFromEncodedURIComponent [] = some [] :=
  ⟨by decide, by decide, by decide⟩

/-- C6 (counterexample): an input whose leading 2-bit value is 3 is not
reported as a failure: the token `"whI"` starts with the 2-bit value 3, yet
the decoder returns the ordinary string `"B"` for it (the `null` first
dictionary entry coerces through `result.join('')`). -/
theorem c6_counterexample_marker3_yields_string :
    (readBits 32 (tokenGet (plusNormalize (jstr "whI"))) 2 0 1
      ⟨effGet (tokenGet (plusNormalize (jstr "whI"))) 0, 32, 1⟩).1 = 3 ∧
    decompressFromEncodedURIComponent (jstr "whI") = some (jstr "B") :=
  ⟨by decide, by decide⟩

/-! ## Claim C8: the two deployed decoder copies agree -/

theorem autopost_keyStr_eq : AutopostEmbedded.keyStrUriSafe = keyStrUriSafe := rfl

theorem autopost_getBaseValue_eq : AutopostEmbedded.getBaseValue = getBaseValue := rfl

theorem autopost_readBits_eq (resetValue : Nat) (get : Nat → Option Nat) :
    ∀ (n acc power : Nat) (data : RdSt),
      AutopostEmbedded.readBits resetValue get n acc power data =
        readBits resetValue get n acc power data := by
  intro n
  induction n with
  | zero => intro acc power data; rfl
  | succ n ih =>
    intro acc power data
    simp only [AutopostEmbedded.readBits, readBits]
    exact ih _ _ _

theorem autopost_decompressLoop_eq (length resetValue : Nat) (get : Nat → Option Nat) :
    ∀ (fuel : Nat) (dictionary : List (Option (List Nat))) (enlargeIn dictSize numBits : Nat)
      (w : Option (List Nat)) (result : List (Option (List Nat))) (data : RdSt),
      AutopostEmbedded.decompressLoop length resetValue get fuel dictionary enlargeIn dictSize
          numBits w result data =
        decompressLoop length resetValue get fuel dictionary enlargeIn dictSize
          numBits w result data := by
  intro fuel
  induction fuel with
  | zero => intros; rfl
  | succ fuel ih =>
    intro dictionary enlargeIn dictSize numBits w result data
    simp only [AutopostEmbedded.decompressLoop, decompressLoop, autopost_readBits_eq, ih]

theorem autopost_decompress_eq (length resetValue : Nat) (get : Nat → Option Nat) :
    AutopostEmbedded.decompress length resetValue get = decompress length resetValue get := by
  simp only [AutopostEmbedded.decompress, decompress, autopost_readBits_eq,
    autopost_decompressLoop_eq]

/-- C8: the two separately deployed copies of the decoder are extensionally
equal: for every input string, the `decompress` pipeline embedded in the
Autopost userscript inside `pasteHappyEncode.ts` and the one in
`facebook-group-autofill.user.js` return the same result. -/
theorem c8_decoder_copies_agree (input : List Nat) :
    AutopostEmbedded.decompressFromEncodedURIComponent input =
      decompressFromEncodedURIComponent input := by
  simp only [AutopostEmbedded.decompressFromEncodedURIComponent,
    decompressFromEncodedURIComponent, autopost_keyStr_eq, autopost_getBaseValue_eq,
    autopost_decompress_eq]

/-! ## Claims C3 and C6: amended statements -/

theorem plusNormalize_idem (t : List Nat) :
    plusNormalize (plusNormalize t) = plusNormalize t := by
  simp only [plusNormalize, List.map_map]
  apply List.map_congr_left
  intro u _
  by_cases h : u = 32 <;> simp [Function.comp, h]

/-- C3 (amended): the decoder's single ingress normalization translates
spaces back to `'+'` (not `'+'` to spaces), and it happens exactly once:
applying the space → `'+'` translation to the input before decoding changes
nothing, because the decoder performs exactly that translation itself before
the alphabet-index lookup. -/
theorem c3_amended_space_to_plus_once (t : List Nat) :
    decompressFromEncodedURIComponent (plusNormalize t) = decompressFromEncodedURIComponent t := by
  by_cases h : t = []
  · subst h; rfl
  · have hn : plusNormalize t ≠ [] := by simpa [plusNormalize] using h
    simp only [decompressFromEncodedURIComponent, if_neg h, if_neg hn, plusNormalize_idem]

/-- C6 (amended, second half of the original claim): a non-empty input whose
leading 2-bit value decodes to 2 makes the decoder return the empty string
immediately. -/
theorem c6_amended_marker2_returns_empty (input : List Nat) (hne : input ≠ [])
    (h2 : (readBits 32 (fun i => getBaseValue keyStrUriSafe ((plusNormalize input).get? i)) 2 0 1
        ⟨(getBaseValue keyStrUriSafe ((plusNormalize input).get? 0)).getD 0, 32, 1⟩).1 = 2) :
    decompressFromEncodedURIComponent input = some [] := by
  simp only [decompressFromEncodedURIComponent, if_neg hne, decompress]
  rw [h2]
  simp

/-- Witness for `c6_amended_marker2_returns_empty`: the token `"Q"` (alphabet
index 16, leading bits `0,1`) decodes to the empty string. -/
theorem c6_amended_marker2_witness :
    jstr "Q" ≠ [] ∧ decompressFromEncodedURIComponent (jstr "Q") = some [] :=
  ⟨by decide, c6_amended_marker2_returns_empty (jstr "Q") (by decide) (by decide)⟩

/-! ## Encoder well-formedness: the bit buffer always holds fewer than 6 bits -/

theorem foldl_preserve {α : Type} {β : Type} (P : α → Prop) (f : α → β → α)
    (hf : ∀ a b, P a → P (f a b)) : ∀ (l : List β) (a : α), P a → P (l.foldl f a) := by
  intro l
  induction l with
  | nil => intro a ha; exact ha
  | cons x xs ih => intro a ha; exact ih _ (hf a x ha)

theorem pushBits_WF (value bits : Nat) (st : EncSt) (h : EncWF st) :
    EncWF (pushBits value bits st) := by
  refine foldl_preserve EncWF _ ?_ (List.range bits) st h
  intro a i ha
  obtain ⟨hc, hb⟩ := ha
  dsimp only
  split
  · refine ⟨?_, ?_⟩ <;> simp
  · next h6 =>
    refine ⟨?_, ?_⟩
    · show a.bitCount + 1 < 6
      omega
    show (a.buffer <<< 1) ||| ((value >>> i) &&& 1) < 2 ^ (a.bitCount + 1)
    have h1 : a.buffer <<< 1 < 2 ^ (a.bitCount + 1) := by
      rw [Nat.shiftLeft_eq, Nat.pow_succ]
      omega
    have h2 : (value >>> i) &&& 1 < 2 ^ (a.bitCount + 1) := by
      have hm := Nat.and_one_is_mod (value >>> i)
      have hlt : (value >>> i) &&& 1 < 2 := by omega
      have hp : (1:Nat) ≤ 2 ^ a.bitCount := Nat.one_le_two_pow
      rw [Nat.pow_succ]
      omega
    exact Nat.or_lt_two_pow h1 h2

theorem bumpEnlarge_st (ctx : EncCtx) : (bumpEnlarge ctx).st = ctx.st := by
  unfold bumpEnlarge
  by_cases h : ctx.enlargeIn - 1 = 0 <;> simp [h]

theorem emitW_WF (ctx : EncCtx) (h : EncWF ctx.st) :
    ∀ ctx', emitW ctx = some ctx' → EncWF ctx'.st := by
  intro ctx' he
  unfold emitW at he
  split at he
  · dsimp only at he
    split at he <;>
    · injection he with he
      subst he
      simp only [bumpEnlarge_st]
      exact pushBits_WF _ _ _ (pushBits_WF _ _ _ h)
  · split at he
    · exact absurd he (by simp)
    · injection he with he
      subst he
      simp only [bumpEnlarge_st]
      exact pushBits_WF _ _ _ h

theorem encodeStep_WF (ctx : EncCtx) (c : Nat) (h : EncWF ctx.st) :
    ∀ ctx', encodeStep ctx c = some ctx' → EncWF ctx'.st := by
  intro ctx' he
  unfold encodeStep at he
  set ctx1 :=
    (if (dictFind ctx.dictionary [c]).isSome then ctx
     else
       { ctx with
         dictionary := ctx.dictionary ++ [([c], ctx.dictionarySize)]
         dictionarySize := ctx.dictionarySize + 1
         pending := ctx.pending ++ [[c]] }) with hctx1
  have h1 : EncWF ctx1.st := by
    rw [hctx1]
    by_cases hd : (dictFind ctx.dictionary [c]).isSome <;> simp [hd] <;> exact h
  by_cases hwc : (dictFind ctx1.dictionary (ctx1.w ++ [c])).isSome
  · rw [if_pos hwc] at he
    injection he with he
    rw [← he]
    exact h1
  · rw [if_neg hwc] at he
    cases hem : emitW ctx1 with
    | none => rw [hem] at he; exact absurd he (by simp)
    | some ctx2 =>
      rw [hem] at he
      injection he with he
      rw [← he]
      exact emitW_WF ctx1 h1 ctx2 hem

theorem encodeFold_none (l : List Nat) :
    l.foldl (fun acc c => match acc with | none => none | some ctx => encodeStep ctx c)
      (none : Option EncCtx) = none := by
  induction l with
  | nil => rfl
  | cons x xs ih => simpa using ih

theorem encodeFold_WF : ∀ (l : List Nat) (ctx : EncCtx), EncWF ctx.st →
    ∀ ctx', l.foldl (fun acc c => match acc with | none => none | some ctx => encodeStep ctx c)
      (some ctx) = some ctx' → EncWF ctx'.st := by
  intro l
  induction l with
  | nil =>
    intro ctx h ctx' he
    injection he with he
    rw [← he]; exact h
  | cons x xs ih =>
    intro ctx h ctx' he
    simp only [List.foldl_cons] at he
    cases hs : encodeStep ctx x with
    | none => rw [hs] at he; rw [encodeFold_none] at he; exact absurd he (by simp)
    | some ctx1 =>
      rw [hs] at he
      exact ih ctx1 (encodeStep_WF ctx x h ctx1 hs) ctx' he

theorem flushLoop_spec : ∀ (fuel buffer bitCount : Nat) (output : List Nat),
    bitCount < 6 → 6 - bitCount ≤ fuel →
    flushLoop fuel buffer bitCount output =
      output ++ [alphabet.getD (buffer <<< (6 - bitCount)) 0] := by
  intro fuel
  induction fuel with
  | zero => intro buffer bitCount output h1 h2; omega
  | succ fuel ih =>
    intro buffer bitCount output h1 h2
    show (if bitCount + 1 = 6 then output ++ [alphabet.getD (buffer <<< 1) 0]
          else flushLoop fuel (buffer <<< 1) (bitCount + 1) output) = _
    by_cases h6 : bitCount + 1 = 6
    · rw [if_pos h6]
      have : 6 - bitCount = 1 := by omega
      rw [this]
    · rw [if_neg h6]
      rw [ih (buffer <<< 1) (bitCount + 1) output (by omega) (by omega)]
      have : buffer <<< 1 <<< (6 - (bitCount + 1)) = buffer <<< (6 - bitCount) := by
        rw [← Nat.shiftLeft_add]
        congr 1
        omega
      rw [this]

theorem flushPadding_length (st : EncSt) (h : EncWF st) :
    (flushPadding st).length = st.output.length + 1 := by
  unfold flushPadding
  rw [flushLoop_spec 6 st.buffer st.bitCount st.output h.1 (by omega)]
  simp

theorem encodeURIComponentM_ne_nil (s : List Nat) (h : s ≠ []) :
    encodeURIComponentM s ≠ [] := by
  cases s with
  | nil => exact absurd rfl h
  | cons u t =>
    simp only [encodeURIComponentM, List.flatMap_cons]
    by_cases h1 : u < 128
    · by_cases h2 : uriUnreserved u <;> simp [h1, h2]
    · simp [h1]

/-- C9: the encoder returns the empty string exactly for null or empty input:
every non-empty input yields a non-empty token, because the end-of-stream
marker plus the zero-padding flush always completes at least one 6-bit
symbol, so the empty string is a safe sentinel for "nothing to encode". -/
theorem c9_encode_empty_iff_input_empty (input : Option (List Nat)) :
    encodePostCopyToUriComponent input = some [] ↔ input = none ∨ input = some [] := by
  cases input with
  | none => simp [encodePostCopyToUriComponent]
  | some s =>
    by_cases hs : s = []
    · subst hs; simp [encodePostCopyToUriComponent]
    · simp only [encodePostCopyToUriComponent, if_neg hs]
      constructor
      · intro h
        exfalso
        cases hF : s.foldl (fun acc c => match acc with | none => none | some ctx => encodeStep ctx c)
            (some { dictionary := [], pending := [], dictionarySize := 3, numBits := 2, enlargeIn := 2
                    st := { buffer := 0, bitCount := 0, output := [] }, w := [] }) with
        | none => rw [hF] at h; simp at h
        | some ctx =>
          rw [hF] at h
          dsimp only at h
          have hWF : EncWF ctx.st :=
            encodeFold_WF s _ (by refine ⟨?_, ?_⟩ <;> simp) ctx hF
          cases hfinal : (if ctx.w = [] then some ctx else emitW ctx) with
          | none => rw [hfinal] at h; simp at h
          | some ctx2 =>
            rw [hfinal] at h
            have hWF2 : EncWF ctx2.st := by
              by_cases hw : ctx.w = []
              · rw [if_pos hw] at hfinal
                injection hfinal with hf2
                rw [← hf2]; exact hWF
              · rw [if_neg hw] at hfinal
                exact emitW_WF ctx hWF ctx2 hfinal
            simp only [Option.some.injEq] at h
            have hWF3 : EncWF (pushBits 2 ctx2.numBits ctx2.st) := pushBits_WF _ _ _ hWF2
            have hlen : (flushPadding (pushBits 2 ctx2.numBits ctx2.st)).length =
                (pushBits 2 ctx2.numBits ctx2.st).output.length + 1 :=
              flushPadding_length _ hWF3
            have hne : flushPadding (pushBits 2 ctx2.numBits ctx2.st) ≠ [] := by
              intro hnil
              rw [hnil] at hlen
              simp at hlen
            exact encodeURIComponentM_ne_nil _ hne h
      · rintro (h | h)
        · exact absurd h (by simp)
        · exact absurd (Option.some.inj h) hs

/-! ## Claim C10: foreign token characters behave as alphabet index 0

The decoder only ever inspects the low 6 bits of a loaded symbol value (the
position mask is one of `32, 16, 8, 4, 2, 1`), so two symbol streams that
agree modulo 64 produce identical decode results. -/

theorem and_pow2_mod64 (v j : Nat) (hj : j ≤ 5) : v % 64 &&& 2 ^ j = v &&& 2 ^ j := by
  rw [Nat.and_two_pow, Nat.and_two_pow]
  congr 1
  have h64 : (64 : Nat) = 2 ^ 6 := by norm_num
  rw [h64, Nat.testBit_mod_two_pow]
  simp [show j < 6 by omega]

theorem readBits_congr (get get' : Nat → Option Nat)
    (hg : ∀ i, (get i).getD 0 % 64 = (get' i).getD 0 % 64) :
    ∀ (n acc power : Nat) (a b : RdSt), ValEq64 a b → PosOK a.position →
      (readBits 32 get n acc power a).1 = (readBits 32 get' n acc power b).1 ∧
      ValEq64 (readBits 32 get n acc power a).2 (readBits 32 get' n acc power b).2 ∧
      PosOK (readBits 32 get n acc power a).2.position := by
  intro n
  induction n with
  | zero => intro acc power a b hab hpos; exact ⟨rfl, hab, hpos⟩
  | succ n ih =>
    intro acc power a b hab hpos
    obtain ⟨hv, hp, hi⟩ := hab
    obtain ⟨j, hj, hpj⟩ := hpos
    have hbit : (if 0 < a.value &&& a.position then (1:Nat) else 0) =
        (if 0 < b.value &&& b.position then 1 else 0) := by
      rw [← hp, hpj, ← and_pow2_mod64 a.value j hj, ← and_pow2_mod64 b.value j hj, hv]
    simp only [readBits]
    rw [hbit, ← hp, ← hi]
    refine ih _ _ _ _ ⟨?_, ?_, ?_⟩ ?_
    · by_cases hz : a.position >>> 1 = 0 <;> simp [hz, hv, hg a.index]
    · by_cases hz : a.position >>> 1 = 0 <;> simp [hz]
    · by_cases hz : a.position >>> 1 = 0 <;> simp [hz]
    · by_cases hz : a.position >>> 1 = 0
      · simp only [hz, if_pos rfl]
        exact ⟨5, by omega, rfl⟩
      · simp only [if_neg hz]
        refine ⟨j - 1, by omega, ?_⟩
        have hj1 : 1 ≤ j := by
          by_contra hlt
          have : j = 0 := by omega
          rw [this] at hpj
          rw [hpj] at hz
          simp at hz
        rw [hpj, Nat.shiftRight_eq_div_pow]
        rw [show (2:Nat) ^ 1 = 2 by norm_num]
        rw [Nat.pow_div hj1 (by norm_num)]

theorem decompressLoop_congr (length : Nat) (get get' : Nat → Option Nat)
    (hg : ∀ i, (get i).getD 0 % 64 = (get' i).getD 0 % 64) :
    ∀ (fuel : Nat) (dictionary : List (Option (List Nat))) (enlargeIn dictSize numBits : Nat)
      (w : Option (List Nat)) (result : List (Option (List Nat))) (a b : RdSt),
      ValEq64 a b → PosOK a.position →
      decompressLoop length 32 get fuel dictionary enlargeIn dictSize numBits w result a =
        decompressLoop length 32 get' fuel dictionary enlargeIn dictSize numBits w result b := by
  intro fuel
  induction fuel with
  | zero => intros; rfl
  | succ fuel ih =>
    intro dictionary enlargeIn dictSize numBits w result a b hab hpos
    have hi : a.index = b.index := hab.2.2
    obtain ⟨hc, hrel, hposr⟩ := readBits_congr get get' hg numBits 0 1 a b hab hpos
    simp only [decompressLoop, ← hi, ← hc]
    by_cases hidx : a.index > length
    · simp [hidx]
    · simp only [if_neg hidx]
      by_cases h2 : (readBits 32 get numBits 0 1 a).1 = 2
      · simp [h2]
      · simp only [if_neg h2]
        by_cases h0 : (readBits 32 get numBits 0 1 a).1 = 0
        · obtain ⟨hc8, hrel8, hpos8⟩ := readBits_congr get get' hg 8 0 1 _ _ hrel hposr
          have hrec : ∀ D E S N W R,
              decompressLoop length 32 get fuel D E S N W R
                  (readBits 32 get 8 0 1 (readBits 32 get numBits 0 1 a).2).2 =
                decompressLoop length 32 get' fuel D E S N W R
                  (readBits 32 get' 8 0 1 (readBits 32 get' numBits 0 1 b).2).2 :=
            fun D E S N W R => ih D E S N W R _ _ hrel8 hpos8
          simp only [if_pos h0, ← hc8, hrec]
        · by_cases h1 : (readBits 32 get numBits 0 1 a).1 = 1
          · obtain ⟨hc16, hrel16, hpos16⟩ := readBits_congr get get' hg 16 0 1 _ _ hrel hposr
            have hrec : ∀ D E S N W R,
                decompressLoop length 32 get fuel D E S N W R
                    (readBits 32 get 16 0 1 (readBits 32 get numBits 0 1 a).2).2 =
                  decompressLoop length 32 get' fuel D E S N W R
                    (readBits 32 get' 16 0 1 (readBits 32 get' numBits 0 1 b).2).2 :=
              fun D E S N W R => ih D E S N W R _ _ hrel16 hpos16
            simp only [if_neg h0, if_pos h1, ← hc16, hrec]
          · have hrec : ∀ D E S N W R,
                decompressLoop length 32 get fuel D E S N W R
                    (readBits 32 get numBits 0 1 a).2 =
                  decompressLoop length 32 get' fuel D E S N W R
                    (readBits 32 get' numBits 0 1 b).2 :=
              fun D E S N W R => ih D E S N W R _ _ hrel hposr
            simp only [if_neg h0, if_neg h1, hrec]

theorem decompress_congr (length : Nat) (get get' : Nat → Option Nat)
    (hg : ∀ i, (get i).getD 0 % 64 = (get' i).getD 0 % 64) :
    decompress length 32 get = decompress length 32 get' := by
  have hinit : ValEq64 ⟨(get 0).getD 0, 32, 1⟩ ⟨(get' 0).getD 0, 32, 1⟩ := ⟨hg 0, rfl, rfl⟩
  have hpos : PosOK (⟨(get 0).getD 0, 32, 1⟩ : RdSt).position := ⟨5, by omega, rfl⟩
  obtain ⟨hc2, hrel2, hpos2⟩ := readBits_congr get get' hg 2 0 1 _ _ hinit hpos
  simp only [decompress, ← hc2]
  by_cases h2 : (readBits 32 get 2 0 1 ⟨(get 0).getD 0, 32, 1⟩).1 = 2
  · simp [h2]
  · simp only [if_neg h2]
    by_cases h0 : (readBits 32 get 2 0 1 ⟨(get 0).getD 0, 32, 1⟩).1 = 0
    · obtain ⟨hc8, hrel8, hpos8⟩ := readBits_congr get get' hg 8 0 1 _ _ hrel2 hpos2
      have hrec : ∀ D E S N W R,
          decompressLoop length 32 get (2 * length + 8) D E S N W R
              (readBits 32 get 8 0 1 (readBits 32 get 2 0 1 ⟨(get 0).getD 0, 32, 1⟩).2).2 =
            decompressLoop length 32 get' (2 * length + 8) D E S N W R
              (readBits 32 get' 8 0 1 (readBits 32 get' 2 0 1 ⟨(get' 0).getD 0, 32, 1⟩).2).2 :=
        fun D E S N W R => decompressLoop_congr length get get' hg _ D E S N W R _ _ hrel8 hpos8
      simp only [if_pos h0, ← hc8, hrec]
    · by_cases h1 : (readBits 32 get 2 0 1 ⟨(get 0).getD 0, 32, 1⟩).1 = 1
      · obtain ⟨hc16, hrel16, hpos16⟩ := readBits_congr get get' hg 16 0 1 _ _ hrel2 hpos2
        have hrec : ∀ D E S N W R,
            decompressLoop length 32 get (2 * length + 8) D E S N W R
                (readBits 32 get 16 0 1 (readBits 32 get 2 0 1 ⟨(get 0).getD 0, 32, 1⟩).2).2 =
              decompressLoop length 32 get' (2 * length + 8) D E S N W R
                (readBits 32 get' 16 0 1 (readBits 32 get' 2 0 1 ⟨(get' 0).getD 0, 32, 1⟩).2).2 :=
          fun D E S N W R => decompressLoop_congr length get get' hg _ D E S N W R _ _ hrel16 hpos16
        simp only [if_neg h0, if_pos h1, ← hc16, hrec]
      · have hrec : ∀ D E S N W R,
            decompressLoop length 32 get (2 * length + 8) D E S N W R
                (readBits 32 get 2 0 1 ⟨(get 0).getD 0, 32, 1⟩).2 =
              decompressLoop length 32 get' (2 * length + 8) D E S N W R
                (readBits 32 get' 2 0 1 ⟨(get' 0).getD 0, 32, 1⟩).2 :=
          fun D E S N W R => decompressLoop_congr length get get' hg _ D E S N W R _ _ hrel2 hpos2
        simp only [if_neg h0, if_neg h1, hrec]

theorem indexOf?_append_singleton (A : List Nat) (b x : Nat) (hx : x ∉ A) :
    (A ++ [b]).indexOf? x = if x = b then some A.length else none := by
  induction A with
  | nil =>
    simp only [List.nil_append, List.indexOf?_cons, List.length_nil]
    by_cases h : x = b
    · simp [h]
    · have : (b == x) = false := by simp [Ne.symm h]
      simp [this, h, List.indexOf?]
  | cons a t ih =>
    have hxa : x ≠ a := by
      intro he
      exact hx (by simp [he])
    have hxt : x ∉ t := fun hm => hx (by simp [hm])
    have : (a == x) = false := by simp [Ne.symm hxa]
    simp only [List.cons_append, List.indexOf?_cons, this, if_false, ih hxt]
    by_cases h : x = b <;> simp [h]

theorem getBaseValue_foreign_mod64 (x : Nat) (hx : x ∉ alphabet64) :
    (getBaseValue keyStrUriSafe (some x)).getD 0 % 64 = 0 := by
  have hsplit : keyStrUriSafe = alphabet64 ++ [36] := by decide
  have hlen : alphabet64.length = 64 := by decide
  simp only [getBaseValue, hsplit, indexOf?_append_singleton alphabet64 36 x hx]
  by_cases h : x = 36 <;> simp [h, hlen]

/-- C10: a token character that is neither a space nor one of the 64 alphabet
characters is silently read as symbol value 0, exactly as the character `'A'`
(alphabet index 0) would be: replacing it by `'A'` leaves the decode result
unchanged, and a foreign character never causes a lookup failure. -/
theorem c10_foreign_char_reads_as_index0 (u v : List Nat) (x : Nat)
    (hxs : x ≠ 32) (hxa : x ∉ alphabet64) :
    decompressFromEncodedURIComponent (u ++ x :: v) =
      decompressFromEncodedURIComponent (u ++ 65 :: v) := by
  have hne1 : u ++ x :: v ≠ [] := by simp
  have hne2 : u ++ 65 :: v ≠ [] := by simp
  have hpn1 : plusNormalize (u ++ x :: v) = plusNormalize u ++ x :: plusNormalize v := by
    simp [plusNormalize, hxs]
  have hpn2 : plusNormalize (u ++ 65 :: v) = plusNormalize u ++ 65 :: plusNormalize v := by
    simp [plusNormalize]
  have hg : ∀ i,
      (getBaseValue keyStrUriSafe ((plusNormalize u ++ x :: plusNormalize v).get? i)).getD 0 % 64 =
      (getBaseValue keyStrUriSafe ((plusNormalize u ++ 65 :: plusNormalize v).get? i)).getD 0 % 64 := by
    intro i
    rcases Nat.lt_trichotomy i (plusNormalize u).length with hlt | heq | hgt
    · rw [List.get?_append hlt, List.get?_append hlt]
    · subst heq
      rw [List.get?_append_right (le_refl _), List.get?_append_right (le_refl _)]
      simp only [Nat.sub_self, List.get?]
      rw [getBaseValue_foreign_mod64 x hxa]
      decide
    · have h1 : (plusNormalize u).length ≤ i := by omega
      rw [List.get?_append_right h1, List.get?_append_right h1]
      have h2 : i - (plusNormalize u).length = (i - (plusNormalize u).length - 1) + 1 := by omega
      rw [h2]
      simp [List.get?]
  simp only [decompressFromEncodedURIComponent, if_neg hne1, if_neg hne2, hpn1, hpn2,
    List.length_append, List.length_cons]
  exact decompress_congr _ _ _ hg

/-- Witness for `c10_foreign_char_reads_as_index0`: the character `'.'` (46)
is neither a space nor in the alphabet, and replacing it by `'A'` in the token
`"EJ."` leaves the decode result unchanged. -/
theorem c10_witness_dot_char :
    (46 : Nat) ≠ 32 ∧ (46 : Nat) ∉ alphabet64 ∧
    decompressFromEncodedURIComponent (jstr "EJ.") =
      decompressFromEncodedURIComponent (jstr "EJA") := by
  refine ⟨by decide, by decide, ?_⟩
  have e1 : jstr "EJ." = jstr "EJ" ++ 46 :: [] := by decide
  have e2 : jstr "EJA" = jstr "EJ" ++ 65 :: [] := by decide
  rw [e1, e2]
  exact c10_foreign_char_reads_as_index0 (jstr "EJ") [] 46 (by decide) (by decide)

/-! ## Claim C7: the bit codec round-trips

The proof abstracts both sides to a flat bit sequence: the encoder's output
denotes the bits `bitsOf`, the flush appends zero padding, and the decoder's
cursor at flat position `k` is `rdAt`; reading `n` bits returns `valBits`. -/

theorem toBitsLSB_length (v : Nat) : ∀ n, (toBitsLSB v n).length = n := by
  intro n
  induction n generalizing v with
  | zero => rfl
  | succ n ih => simp [toBitsLSB, ih]

theorem toBitsLSB_lt_two : ∀ (n v : Nat), ∀ b ∈ toBitsLSB v n, b < 2 := by
  intro n
  induction n with
  | zero => intro v b hb; simp [toBitsLSB] at hb
  | succ n ih =>
    intro v b hb
    simp only [toBitsLSB, List.mem_cons] at hb
    rcases hb with hb | hb
    · subst hb
      have := Nat.and_one_is_mod v
      omega
    · exact ih _ b hb

theorem bufBits_length (b : Nat) : ∀ k, (bufBits b k).length = k := by
  intro k
  induction k generalizing b with
  | zero => rfl
  | succ k ih => simp [bufBits, ih]

theorem bufBits_getD : ∀ (k b j : Nat), j < k →
    (bufBits b k).getD j 0 = b >>> (k - 1 - j) &&& 1 := by
  intro k
  induction k with
  | zero => intro b j hj; omega
  | succ k ih =>
    intro b j hj
    show (bufBits (b >>> 1) k ++ [b &&& 1]).getD j 0 = _
    by_cases hjk : j < k
    · rw [List.getD_append _ _ _ _ (by rw [bufBits_length]; exact hjk)]
      rw [ih (b >>> 1) j hjk]
      rw [← Nat.shiftRight_add]
      congr 2
      omega
    · have hj' : j = k := by omega
      rw [List.getD_append_right _ _ _ _ (by rw [bufBits_length]; omega)]
      rw [bufBits_length, hj']
      simp only [Nat.sub_self, List.getD_cons_zero]
      have hz : k + 1 - 1 - k = 0 := by omega
      rw [hz, Nat.shiftRight_zero]

theorem toBitsLSB_eq_map_range (n : Nat) : ∀ v,
    toBitsLSB v n = (List.range n).map (fun i => (v >>> i) &&& 1) := by
  induction n with
  | zero => intro v; rfl
  | succ n ih =>
    intro v
    rw [List.range_succ_eq_map, List.map_cons, List.map_map]
    show toBitsLSB v (n + 1) = (v >>> 0 &&& 1) :: _
    rw [Nat.shiftRight_zero]
    show (v &&& 1) :: toBitsLSB (v >>> 1) n = _
    congr 1
    rw [ih (v >>> 1)]
    apply List.map_congr_left
    intro i _
    simp only [Function.comp]
    rw [← Nat.shiftRight_add]
    congr 2
    omega

theorem pushBits_eq_pushList (v n : Nat) (st : EncSt) :
    pushBits v n st = pushList (toBitsLSB v n) st := by
  rw [pushList, toBitsLSB_eq_map_range, List.foldl_map]
  rfl

theorem shiftLeft_one_or_bit (x b : Nat) (hb : b < 2) : x <<< 1 ||| b = 2 * x + b := by
  interval_cases b
  · rw [Nat.or_zero, Nat.shiftLeft_eq]
    ring
  · apply Nat.eq_of_testBit_eq
    intro i
    rw [Nat.testBit_lor]
    cases i with
    | zero =>
      simp only [Nat.testBit_zero, Nat.shiftLeft_eq]
      rw [Nat.pow_one, Nat.mul_mod_left]
      have h1 : (2 * x + 1) % 2 = 1 := by omega
      simp [h1]
    | succ i =>
      rw [Nat.testBit_succ, Nat.testBit_succ, Nat.testBit_succ]
      have h1 : x <<< 1 / 2 = x := by
        rw [Nat.shiftLeft_eq, Nat.pow_one]
        omega
      have h2 : (2 * x + 1) / 2 = x := by omega
      have h3 : (1 : Nat) / 2 = 0 := by norm_num
      rw [h1, h2, h3]
      simp [Nat.zero_testBit]

theorem bufBits_push (buf b k : Nat) (hb : b < 2) :
    bufBits (buf <<< 1 ||| b) (k + 1) = bufBits buf k ++ [b] := by
  show bufBits ((buf <<< 1 ||| b) >>> 1) k ++ [(buf <<< 1 ||| b) &&& 1] = _
  rw [shiftLeft_one_or_bit buf b hb]
  have h1 : (2 * buf + b) >>> 1 = buf := by
    rw [Nat.shiftRight_eq_div_pow, Nat.pow_one]
    omega
  have h2 : (2 * buf + b) &&& 1 = b := by
    rw [Nat.and_one_is_mod]
    omega
  rw [h1, h2]

theorem charIdx_alphabet : ∀ s, s < 64 → charIdx (alphabet.getD s 0) = s := by
  decide

theorem tokenBits_append (t1 t2 : List Nat) :
    tokenBits (t1 ++ t2) = tokenBits t1 ++ tokenBits t2 := by
  simp [tokenBits]

theorem pushList_spec : ∀ (bs : List Nat) (st : EncSt), EncWF st → (∀ b ∈ bs, b < 2) →
    EncWF (pushList bs st) ∧ bitsOf (pushList bs st) = bitsOf st ++ bs := by
  intro bs
  induction bs with
  | nil => intro st h _; exact ⟨h, by simp [pushList]⟩
  | cons b t ih =>
    intro st hWF hlt
    obtain ⟨hc6, hbuf⟩ := hWF
    have hb : b < 2 := hlt b (by simp)
    have hstep : pushList (b :: t) st =
        pushList t (if st.bitCount + 1 = 6 then
            { buffer := 0, bitCount := 0
              output := st.output ++ [alphabet.getD (st.buffer <<< 1 ||| b) 0] }
          else { st with buffer := st.buffer <<< 1 ||| b, bitCount := st.bitCount + 1 }) := by
      simp only [pushList, List.foldl_cons]
    rw [hstep]
    by_cases h6 : st.bitCount + 1 = 6
    · have h5 : st.bitCount = 5 := by omega
      have hlt64 : st.buffer <<< 1 ||| b < 64 := by
        rw [shiftLeft_one_or_bit _ _ hb]
        have : st.buffer < 2 ^ 5 := by rw [← h5]; exact hbuf
        have h32 : (2:Nat) ^ 5 = 32 := by norm_num
        omega
      rw [if_pos h6]
      have hWF1 : EncWF
          { buffer := 0, bitCount := 0,
            output := st.output ++ [alphabet.getD (st.buffer <<< 1 ||| b) 0] } := by
        constructor <;> simp
      have hbits1 : bitsOf
          { buffer := 0, bitCount := 0,
            output := st.output ++ [alphabet.getD (st.buffer <<< 1 ||| b) 0] } =
          bitsOf st ++ [b] := by
        have hb00 : bufBits 0 0 = [] := rfl
        simp only [bitsOf, tokenBits_append, hb00, List.append_nil]
        have htb1 : tokenBits [alphabet.getD (st.buffer <<< 1 ||| b) 0] =
            bufBits st.buffer 5 ++ [b] := by
          simp only [tokenBits, List.flatMap_cons, List.flatMap_nil, List.append_nil]
          rw [charIdx_alphabet _ hlt64]
          have h6' : (6 : Nat) = 5 + 1 := by norm_num
          rw [h6', bufBits_push _ _ _ hb]
        rw [htb1, h5]
        simp [List.append_assoc]
      obtain ⟨hW, hB⟩ := ih _ hWF1 (fun x hx => hlt x (by simp [hx]))
      refine ⟨hW, ?_⟩
      rw [hB, hbits1]
      simp
    · rw [if_neg h6]
      have hWF1 : EncWF { st with buffer := st.buffer <<< 1 ||| b, bitCount := st.bitCount + 1 } := by
        refine ⟨?_, ?_⟩
        · show st.bitCount + 1 < 6
          omega
        · show st.buffer <<< 1 ||| b < 2 ^ (st.bitCount + 1)
          rw [shiftLeft_one_or_bit _ _ hb, Nat.pow_succ]
          omega
      have hbits1 : bitsOf { st with buffer := st.buffer <<< 1 ||| b, bitCount := st.bitCount + 1 } =
          bitsOf st ++ [b] := by
        simp only [bitsOf]
        show tokenBits st.output ++ bufBits (st.buffer <<< 1 ||| b) (st.bitCount + 1) = _
        rw [bufBits_push _ _ _ hb]
        simp [List.append_assoc]
      obtain ⟨hW, hB⟩ := ih _ hWF1 (fun x hx => hlt x (by simp [hx]))
      refine ⟨hW, ?_⟩
      rw [hB, hbits1]
      simp

theorem writeList_spec : ∀ (ps : List (Nat × Nat)) (st : EncSt), EncWF st →
    EncWF (ps.foldl (fun st p => pushBits p.1 p.2 st) st) ∧
    bitsOf (ps.foldl (fun st p => pushBits p.1 p.2 st) st) = bitsOf st ++ flatBits ps := by
  intro ps
  induction ps with
  | nil => intro st h; exact ⟨h, by simp [flatBits]⟩
  | cons p t ih =>
    intro st hWF
    simp only [List.foldl_cons]
    rw [pushBits_eq_pushList]
    obtain ⟨hW1, hB1⟩ := pushList_spec (toBitsLSB p.1 p.2) st hWF (toBitsLSB_lt_two p.2 p.1)
    obtain ⟨hW, hB⟩ := ih _ hW1
    refine ⟨hW, ?_⟩
    rw [hB, hB1]
    simp [flatBits, List.append_assoc]

theorem writeValues_spec (ps : List (Nat × Nat)) :
    EncWF (writeValues ps) ∧ bitsOf (writeValues ps) = flatBits ps := by
  obtain ⟨hW, hB⟩ := writeList_spec ps { buffer := 0, bitCount := 0, output := [] }
    ⟨by norm_num, by norm_num⟩
  refine ⟨hW, ?_⟩
  rw [writeValues, hB]
  have : bitsOf { buffer := 0, bitCount := 0, output := [] } = [] := rfl
  rw [this]
  simp

theorem bufBits_shiftpad : ∀ (m k b : Nat),
    bufBits (b <<< m) (k + m) = bufBits b k ++ List.replicate m 0 := by
  intro m
  induction m with
  | zero => intro k b; simp [Nat.shiftLeft_zero]
  | succ m ih =>
    intro k b
    show bufBits ((b <<< (m + 1)) >>> 1) (k + m) ++ [(b <<< (m + 1)) &&& 1] = _
    have h1 : (b <<< (m + 1)) >>> 1 = b <<< m := by
      rw [Nat.shiftLeft_eq, Nat.shiftLeft_eq, Nat.shiftRight_eq_div_pow, Nat.pow_one,
        Nat.pow_succ]
      rw [← Nat.mul_assoc]
      exact Nat.mul_div_cancel _ (by norm_num)
    have h2 : (b <<< (m + 1)) &&& 1 = 0 := by
      rw [Nat.and_one_is_mod, Nat.shiftLeft_eq, Nat.pow_succ, ← Nat.mul_assoc]
      exact Nat.mul_mod_left _ _
    rw [h1, h2, ih k b]
    rw [List.append_assoc]
    congr 1
    rw [← List.replicate_succ' m 0]

theorem bufBits_shiftpad' (b k m n : Nat) (hn : n = k + m) :
    bufBits (b <<< m) n = bufBits b k ++ List.replicate m 0 := by
  subst hn
  exact bufBits_shiftpad m k b

theorem flushPadding_bits (st : EncSt) (h : EncWF st) :
    tokenBits (flushPadding st) = bitsOf st ++ List.replicate (6 - st.bitCount) 0 := by
  unfold flushPadding
  have hc : st.bitCount < 6 := h.1
  rw [flushLoop_spec 6 _ _ _ h.1 (by omega)]
  rw [tokenBits_append]
  have hlt : st.buffer <<< (6 - st.bitCount) < 64 := by
    rw [Nat.shiftLeft_eq]
    have h1 : st.buffer < 2 ^ st.bitCount := h.2
    have h2 : (2:Nat) ^ st.bitCount * 2 ^ (6 - st.bitCount) = 64 := by
      rw [← Nat.pow_add]
      have he : st.bitCount + (6 - st.bitCount) = 6 := by omega
      rw [he]
    calc st.buffer * 2 ^ (6 - st.bitCount)
        < 2 ^ st.bitCount * 2 ^ (6 - st.bitCount) := by
          exact (Nat.mul_lt_mul_right (Nat.pos_pow_of_pos _ (by norm_num))).mpr h1
      _ = 64 := h2
  have htb1 : tokenBits [alphabet.getD (st.buffer <<< (6 - st.bitCount)) 0] =
      bufBits st.buffer st.bitCount ++ List.replicate (6 - st.bitCount) 0 := by
    simp only [tokenBits, List.flatMap_cons, List.flatMap_nil, List.append_nil]
    rw [charIdx_alphabet _ hlt]
    exact bufBits_shiftpad' st.buffer st.bitCount (6 - st.bitCount) 6 (by omega)
  rw [htb1]
  simp [bitsOf, List.append_assoc, tokenBits]

theorem getD_via_get? (l : List Nat) (i : Nat) : l.getD i 0 = (l.get? i).getD 0 := by
  rw [List.getD_eq_getElem?_getD, List.get?_eq_getElem?]

theorem effGet_tokenGet (token : List Nat) (i : Nat) :
    effGet (tokenGet token) i = charIdx (token.getD i 0) := by
  unfold effGet tokenGet charIdx
  rw [getD_via_get?]
  cases h : token.get? i with
  | none =>
    simp only [h, getBaseValue, Option.getD_none]
    decide
  | some c => simp [h, getBaseValue]

theorem tokenBits_getD_chunk : ∀ (token : List Nat) (k : Nat),
    (tokenBits token).getD k 0 = charIdx (token.getD (k / 6) 0) >>> (5 - k % 6) &&& 1 := by
  intro token
  induction token with
  | nil =>
    intro k
    show ([] : List Nat).getD k 0 = charIdx (([] : List Nat).getD (k / 6) 0) >>> (5 - k % 6) &&& 1
    have h1 : (([] : List Nat)).getD k 0 = 0 := by simp
    have h2 : (([] : List Nat)).getD (k / 6) 0 = 0 := by simp
    rw [h1, h2]
    have h3 : charIdx 0 = 0 := by decide
    rw [h3, Nat.zero_shiftRight, Nat.zero_and]
  | cons c t ih =>
    intro k
    show (bufBits (charIdx c) 6 ++ tokenBits t).getD k 0 = _
    by_cases hk : k < 6
    · rw [List.getD_append _ _ _ _ (by rw [bufBits_length]; exact hk)]
      rw [bufBits_getD 6 _ k hk]
      have h1 : k / 6 = 0 := by omega
      have h2 : k % 6 = k := by omega
      have h3 : 6 - 1 - k = 5 - k := by omega
      rw [h1, h2, h3]
      simp
    · rw [List.getD_append_right _ _ _ _ (by rw [bufBits_length]; omega)]
      rw [bufBits_length, ih (k - 6)]
      have e1 : (k - 6) / 6 + 1 = k / 6 := by omega
      have e2 : (k - 6) % 6 = k % 6 := by omega
      rw [← e1, ← e2]
      simp [List.getD_cons_succ]

theorem streamBit_token (token : List Nat) (k : Nat) :
    streamBit (effGet (tokenGet token)) k = (tokenBits token).getD k 0 := by
  rw [streamBit, effGet_tokenGet, tokenBits_getD_chunk]

theorem or_two_pow_of_lt (a m : Nat) (ha : a < 2 ^ m) : a ||| 2 ^ m = a + 2 ^ m := by
  apply Nat.eq_of_testBit_eq
  intro i
  rw [Nat.testBit_lor]
  rcases Nat.lt_trichotomy i m with h | h | h
  · have hf : (2 ^ m).testBit i = false := by
      rw [Nat.testBit_two_pow]
      simp
      omega
    rw [hf, Bool.or_false]
    rw [Nat.testBit_to_div_mod, Nat.testBit_to_div_mod]
    have hsplit : (2:Nat) ^ m = 2 ^ i * 2 ^ (m - i) := by
      rw [← Nat.pow_add]
      congr 1
      omega
    have hdiv : (a + 2 ^ m) / 2 ^ i = a / 2 ^ i + 2 ^ (m - i) := by
      rw [hsplit, Nat.add_mul_div_left _ _ (Nat.pos_pow_of_pos i (by norm_num))]
    rw [hdiv]
    have hev : 2 ^ (m - i) % 2 = 0 := by
      have hmi : m - i = (m - i - 1) + 1 := by omega
      rw [hmi, Nat.pow_succ]
      simp [Nat.mul_mod_left]
    have hmod : (a / 2 ^ i + 2 ^ (m - i)) % 2 = a / 2 ^ i % 2 := by omega
    rw [hmod]
  · subst h
    have ht : (2 ^ i).testBit i = true := by
      rw [Nat.testBit_two_pow]
      simp
    rw [ht, Bool.or_true]
    rw [Nat.testBit_to_div_mod]
    have hdiv : (a + 2 ^ i) / 2 ^ i = 1 := by
      rw [Nat.add_div_right _ (Nat.pos_pow_of_pos i (by norm_num))]
      rw [Nat.div_eq_of_lt ha]
    rw [hdiv]
    simp
  · have h1 : a.testBit i = false :=
      Nat.testBit_lt_two_pow (lt_trans ha (Nat.pow_lt_pow_right (by norm_num) h))
    have h2 : (2 ^ m).testBit i = false := by
      rw [Nat.testBit_two_pow]
      simp
      omega
    have h3 : (a + 2 ^ m).testBit i = false := by
      apply Nat.testBit_lt_two_pow
      have hm1 : a + 2 ^ m < 2 ^ (m + 1) := by
        rw [Nat.pow_succ]
        omega
      calc a + 2 ^ m < 2 ^ (m + 1) := hm1
        _ ≤ 2 ^ i := Nat.pow_le_pow_right (by norm_num) (by omega)
    rw [h1, h2, h3]
    rfl

theorem or_mul_two_pow (acc s m : Nat) (ha : acc < 2 ^ m) (hs : s < 2) :
    acc ||| s * 2 ^ m = acc + s * 2 ^ m := by
  interval_cases s
  · simp
  · simpa using or_two_pow_of_lt acc m ha

theorem ite_and_two_pow (x j : Nat) :
    (if 0 < x &&& 2 ^ j then (1:Nat) else 0) = x >>> j &&& 1 := by
  rw [Nat.and_two_pow, Nat.and_one_is_mod, Nat.shiftRight_eq_div_pow, Nat.testBit_to_div_mod]
  rcases Nat.mod_two_eq_zero_or_one (x / 2 ^ j) with h | h
  · simp [h]
  · simp [h, Nat.pos_pow_of_pos j (by norm_num : 0 < 2)]

theorem streamBit_lt_two (g : Nat → Nat) (k : Nat) : streamBit g k < 2 := by
  rw [streamBit, Nat.and_one_is_mod]
  omega

theorem readBits_spec_go : ∀ (n : Nat) (get : Nat → Option Nat) (k acc m : Nat),
    acc < 2 ^ m →
    readBits 32 get n acc (2 ^ m) (rdAt (effGet get) k) =
      (acc + 2 ^ m * valBits (effGet get) k n, rdAt (effGet get) (k + n)) := by
  intro n
  induction n with
  | zero =>
    intro get k acc m ha
    simp [readBits, valBits]
  | succ n ih =>
    intro get k acc m ha
    have hval : (rdAt (effGet get) k).value = effGet get (k / 6) := rfl
    have hpos : (rdAt (effGet get) k).position = 2 ^ (5 - k % 6) := rfl
    have hidx : (rdAt (effGet get) k).index = k / 6 + 1 := rfl
    simp only [readBits, hval, hpos, hidx]
    have hbit : (if 0 < effGet get (k / 6) &&& 2 ^ (5 - k % 6) then (1:Nat) else 0) =
        streamBit (effGet get) k := by
      rw [ite_and_two_pow]
      rfl
    rw [hbit]
    have hs2 := streamBit_lt_two (effGet get) k
    rw [or_mul_two_pow acc _ m ha hs2]
    have hpow : (2:Nat) ^ m * 2 = 2 ^ (m + 1) := by rw [Nat.pow_succ]
    rw [hpow]
    have hstate : (if (2:Nat) ^ (5 - k % 6) >>> 1 = 0 then
          RdSt.mk ((get (k / 6 + 1)).getD 0) 32 (k / 6 + 1 + 1)
        else RdSt.mk (effGet get (k / 6)) (2 ^ (5 - k % 6) >>> 1) (k / 6 + 1)) =
        rdAt (effGet get) (k + 1) := by
      by_cases hk6 : k % 6 = 5
      · have hz : (2:Nat) ^ (5 - k % 6) >>> 1 = 0 := by
          rw [hk6]
          decide
        rw [if_pos hz]
        have e1 : (k + 1) / 6 = k / 6 + 1 := by omega
        have e2 : (k + 1) % 6 = 0 := by omega
        simp only [rdAt, e1, e2]
        rfl
      · have hk5 : k % 6 < 5 := by
          have h6 : k % 6 < 6 := Nat.mod_lt k (by norm_num)
          omega
        have hz : (2:Nat) ^ (5 - k % 6) >>> 1 = 2 ^ (5 - (k + 1) % 6) := by
          rw [Nat.shiftRight_eq_div_pow, Nat.pow_one]
          have e : 5 - k % 6 = (5 - (k + 1) % 6) + 1 := by omega
          rw [e, Nat.pow_succ]
          exact Nat.mul_div_cancel _ (by norm_num)
        have hnz : (2:Nat) ^ (5 - k % 6) >>> 1 ≠ 0 := by
          rw [hz]
          exact Nat.pos_iff_ne_zero.mp (Nat.pos_pow_of_pos _ (by norm_num))
        rw [if_neg hnz, hz]
        simp only [rdAt]
        have e1 : (k + 1) / 6 = k / 6 := by omega
        rw [e1]
    rw [hstate]
    have hlt' : acc + streamBit (effGet get) k * 2 ^ m < 2 ^ (m + 1) := by
      have hmul : streamBit (effGet get) k * 2 ^ m ≤ 2 ^ m := by
        have h1 : streamBit (effGet get) k ≤ 1 := by omega
        calc streamBit (effGet get) k * 2 ^ m ≤ 1 * 2 ^ m :=
              Nat.mul_le_mul_right _ h1
          _ = 2 ^ m := Nat.one_mul _
      rw [Nat.pow_succ]
      omega
    rw [ih get (k + 1) _ (m + 1) hlt']
    have h1 : acc + streamBit (effGet get) k * 2 ^ m +
        2 ^ (m + 1) * valBits (effGet get) (k + 1) n =
        acc + 2 ^ m * valBits (effGet get) k (n + 1) := by
      have hv : valBits (effGet get) k (n + 1) =
          streamBit (effGet get) k + 2 * valBits (effGet get) (k + 1) n := rfl
      rw [hv, Nat.pow_succ]
      ring
    have h2 : k + 1 + n = k + (n + 1) := by omega
    rw [h1, h2]

theorem readBits_spec (get : Nat → Option Nat) (k n : Nat) :
    readBits 32 get n 0 1 (rdAt (effGet get) k) =
      (valBits (effGet get) k n, rdAt (effGet get) (k + n)) := by
  have h := readBits_spec_go n get k 0 0 (by norm_num)
  simpa using h

theorem valBits_of_bits (g : Nat → Nat) : ∀ (n k v : Nat), v < 2 ^ n →
    (∀ i, i < n → streamBit g (k + i) = (toBitsLSB v n).getD i 0) →
    valBits g k n = v := by
  intro n
  induction n with
  | zero =>
    intro k v hv _
    have : v = 0 := by
      have h1 : (2:Nat) ^ 0 = 1 := by norm_num
      omega
    simp [valBits, this]
  | succ n ih =>
    intro k v hv hbits
    show streamBit g k + 2 * valBits g (k + 1) n = v
    have h0 : streamBit g k = v &&& 1 := by
      have h := hbits 0 (by omega)
      rw [Nat.add_zero] at h
      simpa [toBitsLSB] using h
    have hrec : valBits g (k + 1) n = v >>> 1 := by
      apply ih (k + 1) (v >>> 1)
      · rw [Nat.shiftRight_eq_div_pow, Nat.pow_one]
        rw [Nat.pow_succ] at hv
        omega
      · intro i hi
        have h := hbits (i + 1) (by omega)
        have e : k + (i + 1) = k + 1 + i := by omega
        rw [e] at h
        simpa [toBitsLSB] using h
    rw [h0, hrec, Nat.and_one_is_mod, Nat.shiftRight_eq_div_pow, Nat.pow_one]
    omega

theorem flatBits_cons (p : Nat × Nat) (t : List (Nat × Nat)) :
    flatBits (p :: t) = toBitsLSB p.1 p.2 ++ flatBits t := by
  simp [flatBits]

theorem readValues_spec (get : Nat → Option Nat) : ∀ (ps : List (Nat × Nat)) (k : Nat),
    (∀ p ∈ ps, p.1 < 2 ^ p.2) →
    (∀ i, i < (flatBits ps).length → streamBit (effGet get) (k + i) = (flatBits ps).getD i 0) →
    readValues 32 get (ps.map Prod.snd) (rdAt (effGet get) k) =
      (ps.map Prod.fst, rdAt (effGet get) (k + (flatBits ps).length)) := by
  intro ps
  induction ps with
  | nil =>
    intro k _ _
    show ([], rdAt (effGet get) k) = ([], rdAt (effGet get) (k + (flatBits []).length))
    simp [flatBits]
  | cons p t ih =>
    intro k hval hbits
    have hw : (toBitsLSB p.1 p.2).length = p.2 := toBitsLSB_length p.1 p.2
    simp only [List.map_cons, readValues]
    rw [readBits_spec]
    have hv : valBits (effGet get) k p.2 = p.1 := by
      apply valBits_of_bits _ p.2 k p.1 (hval p (by simp))
      intro i hi
      have h := hbits i (by rw [flatBits_cons, List.length_append, hw]; omega)
      rw [flatBits_cons, List.getD_append _ _ _ _ (by rw [hw]; exact hi)] at h
      exact h
    rw [hv]
    have hrest := ih (k + p.2) (fun q hq => hval q (by simp [hq])) ?_
    · rw [hrest]
      rw [flatBits_cons, List.length_append, hw]
      have e : k + p.2 + (flatBits t).length = k + (p.2 + (flatBits t).length) := by omega
      rw [e]
    · intro i hi
      have h := hbits (p.2 + i) (by rw [flatBits_cons, List.length_append, hw]; omega)
      rw [flatBits_cons, List.getD_append_right _ _ _ _ (by rw [hw]; omega)] at h
      rw [hw] at h
      have e1 : k + (p.2 + i) = k + p.2 + i := by omega
      have e2 : p.2 + i - p.2 = i := by omega
      rw [e1, e2] at h
      exact h

/-- C7: the bit codec is an inverse pair.  For every finite sequence of
`(value, width)` pairs with `value < 2 ^ width`, writing each value with the
encoder's `pushBits` (low `width` bits, least-significant bit first, each
completed 6-bit group assembled most-significant-bit first and mapped through
the alphabet) followed by the zero-padding flush, and then reading back
`width` bits per value with the decoder's bit-reading loop (position mask
starting at 32, halving per bit, bits reassembled least-significant first),
recovers exactly the original sequence of values. -/
theorem c7_bit_codec_inverse (ps : List (Nat × Nat)) (h : ∀ p ∈ ps, p.1 < 2 ^ p.2) :
    (readValues 32 (tokenGet (encodeToken ps)) (ps.map Prod.snd)
      ⟨(tokenGet (encodeToken ps) 0).getD 0, 32, 1⟩).1 = ps.map Prod.fst := by
  obtain ⟨hWF, hbits⟩ := writeValues_spec ps
  have htok : tokenBits (encodeToken ps) =
      flatBits ps ++ List.replicate (6 - (writeValues ps).bitCount) 0 := by
    rw [encodeToken, flushPadding_bits _ hWF, hbits]
  have hstream : ∀ i, i < (flatBits ps).length →
      streamBit (effGet (tokenGet (encodeToken ps))) (0 + i) = (flatBits ps).getD i 0 := by
    intro i hi
    rw [Nat.zero_add, streamBit_token, htok, List.getD_append _ _ _ _ hi]
  have hinit : (⟨(tokenGet (encodeToken ps) 0).getD 0, 32, 1⟩ : RdSt) =
      rdAt (effGet (tokenGet (encodeToken ps))) 0 := rfl
  rw [hinit]
  rw [readValues_spec (tokenGet (encodeToken ps)) ps 0 h hstream]

/-- Witness for `c7_bit_codec_inverse`: the trace of `encode("A")` — an 8-bit
literal escape marker at width 2, the character value 65 in 8 bits, and the
end-of-stream marker 2 at width 2 — written and read back exactly. -/
theorem c7_witness_literal_trace :
    (∀ p ∈ [((0:Nat), (2:Nat)), (65, 8), (2, 2)], p.1 < 2 ^ p.2) ∧
    (readValues 32 (tokenGet (encodeToken [((0:Nat), (2:Nat)), (65, 8), (2, 2)]))
        ([((0:Nat), (2:Nat)), (65, 8), (2, 2)].map Prod.snd)
        ⟨(tokenGet (encodeToken [((0:Nat), (2:Nat)), (65, 8), (2, 2)]) 0).getD 0, 32, 1⟩).1 =
      [((0:Nat), (2:Nat)), (65, 8), (2, 2)].map Prod.fst :=
  ⟨by decide, c7_bit_codec_inverse _ (by decide)⟩
